import Mathlib

/-!
Verification of the Gemini receipt-OCR batch pipeline
(source: `2_jpg_to_json_byGeminiOCR.py`).

The Python program is shallowly embedded below.  Wall-clock time is
modelled exactly by rationals: `time.time()` readings advance strictly
between successive program actions, and `time.sleep(d)` advances the
clock by exactly `d` (a real sleep may be longer, which only slackens
the timing constraints proved here).  The `google.genai` service is
modelled by oracles: a response object of duck-typed shape for
`extract_text_from_response`, a parse oracle for `json.loads`, and a
per-attempt outcome for the upload / generate-content calls.
-/

namespace GeminiOCR

/-! ### Configuration constants (lines 67-72 of the source) -/

/-- `MAX_RPM = 4` -/
def MAX_RPM : Nat := 4

/-- `WINDOW_SECONDS = 60`, as a rational number of seconds. -/
def WINDOW_SECONDS : ℚ := 60

/-- `MAX_RETRIES = 3` -/
def MAX_RETRIES : Nat := 3

/-! ### Rate-window state

The global deque `request_times` together with the current wall-clock
reading.  `times` is kept in chronological order (oldest first), exactly
like the Python deque which is only ever `append`ed on the right and
`popleft`ed on the left. -/

structure RState where
  now : ℚ
  times : List ℚ
  deriving DecidableEq, Repr

/-- The purge loop
`while request_times and now - request_times[0] > WINDOW_SECONDS: request_times.popleft()`
(lines 186-187 and 195-196): drop timestamps older than the window from
the front, stopping at the first recent-enough one. -/
def purge (now : ℚ) : List ℚ → List ℚ
  | [] => []
  | t :: rest => if WINDOW_SECONDS < now - t then purge now rest else t :: rest

/-- `wait_for_rate_slot()` (lines 183-196).  Purges old timestamps; if
`MAX_RPM` or more remain, sleeps until the oldest would leave the
window (clamped at 0), then purges again.  The function does **not**
append any timestamp; that happens later in `process_image`. -/
def wait_for_rate_slot (s : RState) : RState :=
  let ts1 := purge s.now s.times
  if MAX_RPM ≤ ts1.length then
    let wt := WINDOW_SECONDS - (s.now - ts1.headI)
    let now2 := if 0 < wt then s.now + wt else s.now
    ⟨now2, purge now2 ts1⟩
  else
    ⟨s.now, ts1⟩

/-! ### Admission sequences

A driver for arbitrary interleavings of rate-slot requests, as issued by
`process_image`: a `call pre post` step models an attempt whose API
calls return (so `request_times.append(time.time())` runs, `post ≥ 0`
seconds after the slot was granted), and a `slotOnly pre` step models an
attempt whose API calls raise (the slot is waited for but no timestamp
is recorded).  `pre > 0` is the wall-clock time elapsing since the
previous action. -/

inductive AdmOp where
  | call (pre post : ℚ)
  | slotOnly (pre : ℚ)
  deriving DecidableEq, Repr

/-- Validity of a single driver step: real time strictly advances
between actions (`0 < pre`) and API calls take nonnegative time. -/
def validOp : AdmOp → Bool
  | .call pre post => decide (0 < pre) && decide (0 ≤ post)
  | .slotOnly pre => decide (0 < pre)

/-- Run a sequence of admission requests against the rate window,
accumulating in `hist` the timestamps actually recorded by
`request_times.append(time.time())`. -/
def runAdmits : RState → List ℚ → List AdmOp → RState × List ℚ
  | s, hist, [] => (s, hist)
  | s, hist, .slotOnly pre :: rest =>
      runAdmits (wait_for_rate_slot ⟨s.now + pre, s.times⟩) hist rest
  | s, hist, .call pre post :: rest =>
      let s1 := wait_for_rate_slot ⟨s.now + pre, s.times⟩
      let a := s1.now + post
      runAdmits ⟨a, s1.times ++ [a]⟩ (hist ++ [a]) rest

/-- A concrete driver schedule used to exhibit satisfiability of the
rate-limit theorems' hypotheses. -/
def ops0 : List AdmOp := [.call 1 0, .slotOnly 1, .call 1 0]

/-! ### Response objects (`extract_text_from_response`, lines 89-125)

A `google.genai` reply is duck-typed; we model exactly the attribute
accesses the code performs.  `TextAttr` models `getattr(x, "text", None)`
combined with the `isinstance(_, str)` test. -/

inductive TextAttr where
  | absent
  | nonStr
  | str (v : String)
  deriving DecidableEq, Repr

structure Part where
  text : TextAttr
  deriving DecidableEq, Repr

structure Content where
  parts : Option (List Part)
  deriving DecidableEq, Repr

structure Candidate where
  content : Option Content
  str_repr : String
  deriving DecidableEq, Repr

structure Resp where
  text : TextAttr
  candidates : Option (List Candidate)
  str_repr : String
  deriving DecidableEq, Repr

/-- Python's `\s` class (ASCII range): space, tab, newline, carriage
return, vertical tab, form feed. -/
def isPyWS (c : Char) : Bool :=
  c = ' ' || c = Char.ofNat 9 || c = Char.ofNat 10 || c = Char.ofNat 13 ||
    c = Char.ofNat 11 || c = Char.ofNat 12

/-- Python's `str.strip()` (ASCII whitespace): drop leading and trailing
whitespace. -/
def pyStrip (s : String) : String :=
  String.mk (((s.toList.dropWhile isPyWS).reverse.dropWhile isPyWS).reverse)

/-- Python's `str.lower()` (ASCII letters). -/
def pyLower (s : String) : String :=
  String.mk (s.toList.map Char.toLower)

/-- Lexicographic code-point order on character lists. -/
def lexLe : List Char → List Char → Bool
  | [], _ => true
  | _ :: _, [] => false
  | a :: as, b :: bs =>
    if a < b then true
    else if a = b then lexLe as bs
    else false

/-- Python's `<=` on strings (and on `pathlib.Path` values inside one
directory): lexicographic by code point. -/
def strLe (a b : String) : Bool := lexLe a.toList b.toList

/-- The `candidates` probing block of `extract_text_from_response`
(lines 102-119) followed by the final `str(resp)` fallback (lines 120-125).
Reached when the direct `.text` attribute is not a non-blank string. -/
def fromCandidates (resp : Resp) : Option String :=
  match resp.candidates with
  | some (first :: _) =>
    match first.content with
    | some content =>
      match content.parts with
      | some (p0 :: _) =>
        match p0.text with
        | TextAttr.str t => some (pyStrip t)
        | _ => some first.str_repr
      | _ => some first.str_repr
    | none => some first.str_repr
  | _ => some (pyStrip resp.str_repr)

/-- `extract_text_from_response(resp)` (lines 89-125), translated branch by
branch.  `pyStrip` models Python's `str.strip()`. -/
def extract_text_from_response : Option Resp → Option String
  | none => none
  | some resp =>
    match resp.text with
    | TextAttr.str v => if pyStrip v ≠ "" then some (pyStrip v) else fromCandidates resp
    | _ => fromCandidates resp

/-- Extraction strategy (a) of the spec: the reply's direct text field,
succeeding only when it is a string with non-blank content. -/
def stratDirect (r : Resp) : Option String :=
  match r.text with
  | TextAttr.str v => if pyStrip v ≠ "" then some (pyStrip v) else none
  | _ => none

/-- Extraction strategy (b): the first candidate's first content part,
succeeding whenever its text field is a string — even a blank one. -/
def stratParts (r : Resp) : Option String :=
  match r.candidates with
  | some (first :: _) =>
    match first.content with
    | some content =>
      match content.parts with
      | some (p0 :: _) =>
        match p0.text with
        | TextAttr.str t => some (pyStrip t)
        | _ => none
      | _ => none
    | none => none
  | _ => none

/-- Extraction strategy (c): the stringified first candidate (unstripped),
available whenever there is at least one candidate. -/
def stratStrFirst (r : Resp) : Option String :=
  match r.candidates with
  | some (first :: _) => some first.str_repr
  | _ => none

/-- Extraction strategy (d): the stripped stringified reply; always available. -/
def stratStrResp (r : Resp) : Option String :=
  some (pyStrip r.str_repr)

/-- The ordered, first-success-wins fallback chain over the four strategies,
written from the spec's wording of the extraction policy (as amended). -/
def orderedExtractionChain (r : Resp) : Option String :=
  (stratDirect r) <|> (stratParts r) <|> (stratStrFirst r) <|> stratStrResp r

/-- A reply with no direct text, one candidate whose first part text is the
blank string, and a non-blank stringified form. -/
def blankPartResp : Resp :=
  { text := TextAttr.absent
    candidates := some [{ content := some { parts := some [{ text := TextAttr.str "" }] }
                          str_repr := "CANDSTR" }]
    str_repr := "NONBLANK" }

/-! ### JSON values and `extract_json_loose` (lines 128-170) -/

/-- JSON values as produced by `json.loads`; numbers are rationals. -/
inductive JVal where
  | null
  | bool (b : Bool)
  | num (q : ℚ)
  | str (s : String)
  | arr (xs : List JVal)
  | obj (kvs : List (String × JVal))

def commaChar : Char := Char.ofNat 44
def lbraceChar : Char := Char.ofNat 123
def rbraceChar : Char := Char.ofNat 125
def lbrackChar : Char := Char.ofNat 91
def rbrackChar : Char := Char.ofNat 93
def tickChar : Char := Char.ofNat 96

/-- `re.sub(r",\s*}", "}", s)` (lines 145 and 164): non-overlapping
left-to-right replacement of a comma, optional whitespace and a closing
brace by the closing brace alone. -/
def fixTrailingComma : List Char → List Char
  | [] => []
  | c :: rest =>
    if c = commaChar then
      match h : rest.dropWhile isPyWS with
      | d :: tail =>
        if d = rbraceChar then rbraceChar :: fixTrailingComma tail
        else c :: fixTrailingComma rest
      | [] => c :: fixTrailingComma rest
    else c :: fixTrailingComma rest
termination_by l => l.length
decreasing_by
  · have h1 : (rest.dropWhile isPyWS).length ≤ rest.length :=
      (List.dropWhile_sublist _).length_le
    rw [h] at h1
    simp only [List.length_cons] at h1 ⊢
    omega
  · simp
  · simp
  · simp

/-- Position just after the first occurrence of three consecutive backticks;
`none` when there is none. -/
def afterFence : List Char → Option (List Char)
  | [] => none
  | c :: rest =>
    if c = tickChar then
      match rest with
      | c2 :: c3 :: tail =>
        if c2 = tickChar && c3 = tickChar then some tail else afterFence rest
      | _ => none
    else afterFence rest

/-- Content up to (excluding) the next occurrence of three consecutive
backticks; `none` if there is no closing fence (lazy `(.*?)` matching). -/
def beforeFence : List Char → Option (List Char)
  | [] => none
  | c :: rest =>
    if c = tickChar then
      match rest with
      | c2 :: c3 :: _ =>
        if c2 = tickChar && c3 = tickChar then some []
        else (beforeFence rest).map (c :: ·)
      | _ => none
    else (beforeFence rest).map (c :: ·)

/-- The optional case-insensitive `json` tag after the opening fence. -/
def hasJsonTag : List Char → Bool
  | a :: b :: c :: d :: _ =>
    a.toLower = 'j' && b.toLower = 's' && c.toLower = 'o' && d.toLower = 'n'
  | _ => false

/-- The capture group of
`re.search(r"```(?:json)?\s*(.*?)```", text, DOTALL | IGNORECASE)` (line 142). -/
def fenceContent (text : List Char) : Option (List Char) :=
  match afterFence text with
  | none => none
  | some rest =>
    let rest1 := if hasJsonTag rest then rest.drop 4 else rest
    beforeFence (rest1.dropWhile isPyWS)

/-- `text.find(c)`: index of first occurrence, `none` when absent. -/
def firstIdx (c : Char) (l : List Char) : Option Nat :=
  l.findIdx? (· = c)

/-- `text.rfind(c)`: index of last occurrence, `none` when absent. -/
def lastIdx (c : Char) (l : List Char) : Option Nat :=
  (l.reverse.findIdx? (· = c)).map (fun i => l.length - 1 - i)

/-- Lines 151-161: the slice from the first `{` to the last `}` when that is
a non-empty span, else (`elif`) from the first `[` to the last `]`. -/
def braceCandidate (l : List Char) : Option (List Char) :=
  let objCand :=
    match firstIdx lbraceChar l, lastIdx rbraceChar l with
    | some i, some j => if i < j then some ((l.drop i).take (j + 1 - i)) else none
    | _, _ => none
  match objCand with
  | some c => some c
  | none =>
    match firstIdx lbrackChar l, lastIdx rbrackChar l with
    | some i, some j => if i < j then some ((l.drop i).take (j + 1 - i)) else none
    | _, _ => none

/-- `extract_json_loose(text)` (lines 128-170), parameterised by the
`json.loads` reference parser `loads` (returning `none` exactly when Python
would raise).  Stage 1 parses the whole text; stage 2 parses a fenced block
(stripped, then trailing-comma repaired); stage 3 parses the brace/bracket
slice (with the same repair).  Each stage runs only if the previous failed. -/
def extract_json_loose {α : Type} (loads : String → Option α) (text : String) : Option α :=
  match loads text with
  | some v => some v
  | none =>
    let stage2 :=
      match fenceContent text.toList with
      | some content =>
        loads (String.mk (fixTrailingComma (pyStrip (String.mk content)).toList))
      | none => none
    match stage2 with
    | some v => some v
    | none =>
      match braceCandidate text.toList with
      | some cand => loads (String.mk (fixTrailingComma cand))
      | none => none

/-! ### Error classification (lines 173-179) -/

/-- Substring containment on character lists, modelling Python's `in`. -/
def listContainsSub (pat : List Char) : List Char → Bool
  | [] => pat.isEmpty
  | c :: rest => pat.isPrefixOf (c :: rest) || listContainsSub pat rest

def rate_markers : List String :=
  ["429", "rate limit", "quota", "resource_exhausted", "too many requests"]

/-- `is_rate_limit_error(exc)`: marker search in the lower-cased message. -/
def is_rate_limit_error (msg : String) : Bool :=
  rate_markers.any fun m => listContainsSub m.toList (pyLower msg).toList

/-! ### Records and `process_image` (lines 200-249) -/

/-- One output record: an ordered association list modelling
`collections.OrderedDict`. -/
abbrev RecordT := List (String × JVal)

/-- `od[k] = v` on an ordered dict: update in place when the key exists
(keeping its position), append at the end otherwise. -/
def odInsert (od : RecordT) (k : String) (v : JVal) : RecordT :=
  if od.any (fun p => decide (p.1 = k)) then
    od.map (fun p => if p.1 = k then (k, v) else p)
  else od ++ [(k, v)]

/-- Lines 230-238: build the per-image record — filename key first, then the
parsed object's fields merged in, or a single `data` field for non-objects. -/
def buildRecord (name : String) (parsed : JVal) : RecordT :=
  match parsed with
  | JVal.obj kvs =>
    kvs.foldl (fun od kv => odInsert od kv.1 kv.2) [("ファイル名", JVal.str name)]
  | _ => [("ファイル名", JVal.str name), ("data", parsed)]

/-- The value at the last occurrence of `key` in an association list (the
occurrence that wins under repeated dict assignment). -/
def lastAssoc (key : String) : List (String × JVal) → Option JVal
  | [] => none
  | (k, v) :: rest =>
    match lastAssoc key rest with
    | some w => some w
    | none => if k = key then some v else none

/-- The outcome of one attempt's API interaction: either `client.files.upload`
or `client.models.generate_content` raises with a message, or both return
after `dt ≥ 0` seconds with a reply object. -/
inductive ApiStep where
  | raiseExn (msg : String)
  | respond (dt : ℚ) (resp : Option Resp)

/-- One attempt of the retry loop: wall-clock gap `pre` before the
`time.time()` read in `wait_for_rate_slot`, then the API interaction. -/
abbrev Attempt := ℚ × ApiStep

/-- `process_image` (lines 200-249), threading the rate-window state.  One
list entry per attempt of the `for attempt in range(1, max_retries + 1)`
loop; `main` always calls it with `MAX_RETRIES` attempts.  Returns
`Except.error` when a rate-limit-classified exception is re-raised
(line 243), `.ok none` when all retries are exhausted (line 249), and
`.ok (some record)` on success.  The timestamp append of line 218 happens
right after the API calls return, before the text checks. -/
def process_image_go (loads : String → Option JVal) (name : String) :
    RState → List Attempt → Except String (Option RecordT) × RState
  | s, [] => (Except.ok none, s)
  | s, (pre, step) :: rest =>
    let s1 := wait_for_rate_slot ⟨s.now + pre, s.times⟩
    match step with
    | ApiStep.raiseExn msg =>
      if is_rate_limit_error msg then (Except.error msg, s1)
      else process_image_go loads name s1 rest
    | ApiStep.respond dt resp =>
      let a := s1.now + dt
      let s2 : RState := ⟨a, s1.times ++ [a]⟩
      match extract_text_from_response resp with
      | none => process_image_go loads name s2 rest
      | some text =>
        if text = "" then process_image_go loads name s2 rest
        else
          match extract_json_loose loads text with
          | none => process_image_go loads name s2 rest
          | some parsed => (Except.ok (some (buildRecord name parsed)), s2)

/-- The control-flow outcome of `process_image`; it does not depend on the
rate-window state (see `process_image_go_fst`). -/
def process_image_outcome (loads : String → Option JVal) (name : String) :
    List Attempt → Except String (Option RecordT)
  | [] => Except.ok none
  | (_, step) :: rest =>
    match step with
    | ApiStep.raiseExn msg =>
      if is_rate_limit_error msg then Except.error msg
      else process_image_outcome loads name rest
    | ApiStep.respond _ resp =>
      match extract_text_from_response resp with
      | none => process_image_outcome loads name rest
      | some text =>
        if text = "" then process_image_outcome loads name rest
        else
          match extract_json_loose loads text with
          | none => process_image_outcome loads name rest
          | some parsed => Except.ok (some (buildRecord name parsed))

/-- An attempt that the retry loop treats as a failure and retries: a
non-rate-limit exception, an empty or absent response text, or text from
which no JSON could be extracted. -/
def failingStep (loads : String → Option JVal) : Attempt → Bool
  | (_, ApiStep.raiseExn msg) => ! is_rate_limit_error msg
  | (_, ApiStep.respond _ resp) =>
    match extract_text_from_response resp with
    | none => true
    | some text =>
      if text = "" then true
      else
        match extract_json_loose loads text with
        | none => true
        | some _ => false

/-! ### `main` (lines 252-289) -/

/-- One input image: its filename and the environment's per-attempt
outcomes. -/
structure ImgCase where
  name : String
  steps : List Attempt

/-- The error record appended at line 273 when `process_image` returns
`None`. -/
def errorRec (name : String) : RecordT :=
  [("ファイル名", JVal.str name), ("error", JVal.str "Invalid or no JSON")]

/-- The loop body of `main` (lines 260-275): records accumulated in input
order, aborting (`break`) on the first exception escaping `process_image`. -/
def mainLoop (loads : String → Option JVal) :
    RState → List ImgCase → List RecordT × RState × Bool
  | s, [] => ([], s, false)
  | s, c :: rest =>
    match process_image_go loads c.name s c.steps with
    | (Except.error _, s1) => ([], s1, true)
    | (Except.ok none, s1) =>
      let t := mainLoop loads s1 rest
      (errorRec c.name :: t.1, t.2)
    | (Except.ok (some od), s1) =>
      let t := mainLoop loads s1 rest
      (od :: t.1, t.2)

/-- `sorted(image_files)` of line 255: the listing sorted by filename. -/
def sortImgs (images : List ImgCase) : List ImgCase :=
  List.insertionSort (fun a b => strLe a.name b.name = true) images

/-- Wall-clock timestamp truncated to the minute, for
`datetime.now().strftime("%Y%m%d_%H%M")`. -/
structure StampMin where
  year : Nat
  month : Nat
  day : Nat
  hour : Nat
  minute : Nat

def pad2 (n : Nat) : String :=
  if n < 10 then "0" ++ toString n else toString n

def pad4 (n : Nat) : String :=
  if n < 10 then "000" ++ toString n
  else if n < 100 then "00" ++ toString n
  else if n < 1000 then "0" ++ toString n
  else toString n

/-- The output filename `f"{ts_str}.json"` with `ts_str` from
`strftime("%Y%m%d_%H%M")` (lines 280-281). -/
def fmtName (t : StampMin) : String :=
  pad4 t.year ++ pad2 t.month ++ pad2 t.day ++ "_" ++ pad2 t.hour ++ pad2 t.minute ++ ".json"

/-- The observable result of a `main()` run (lines 252-289): accumulated
records, the abort flag, and the file writes performed by the `finally`
block (lines 277-286), which runs exactly once on every exit path and
writes the full record array when `results` is non-empty, nothing
otherwise. -/
structure MainOut where
  results : List RecordT
  aborted : Bool
  writes : List (String × List RecordT)

def mainModel (loads : String → Option JVal) (images : List ImgCase)
    (s : RState) (ts : StampMin) : MainOut :=
  let r := mainLoop loads s (sortImgs images)
  { results := r.1
    aborted := r.2.2
    writes := if r.1.isEmpty then [] else [(fmtName ts, r.1)] }

/-- The record contributed by one image, as decided by its own attempt
outcomes alone: `error` aborts the batch, otherwise the success record or
the synthetic error record. -/
def recOutcome (loads : String → Option JVal) (c : ImgCase) : Except String RecordT :=
  match process_image_outcome loads c.name c.steps with
  | Except.error m => Except.error m
  | Except.ok (some od) => Except.ok od
  | Except.ok none => Except.ok (errorRec c.name)

/-- Collect per-image records up to the first aborting image. -/
def collectOk : List (Except String RecordT) → List RecordT
  | [] => []
  | Except.ok r :: rest => r :: collectOk rest
  | Except.error _ :: _ => []

/-! ### Concrete inputs used in satisfiability witnesses -/

/-- `json.loads` stub: parses only the text `{}` to the empty object. -/
def loads0 : String → Option JVal :=
  fun t => if t = "\x7b\x7d" then some (JVal.obj []) else none

/-- A reply carrying the text `{}`. -/
def respOk0 : Resp :=
  { text := TextAttr.str "\x7b\x7d", candidates := none, str_repr := "" }

/-- Three attempts that all come back with no reply object. -/
def failSteps0 : List Attempt :=
  [(1, ApiStep.respond 0 none), (1, ApiStep.respond 0 none), (1, ApiStep.respond 0 none)]

def imgFail0 : ImgCase := { name := "a.jpg", steps := failSteps0 }

def imgOk0 : ImgCase := { name := "b.jpg", steps := [(1, ApiStep.respond 0 (some respOk0))] }

def imgAbort0 : ImgCase :=
  { name := "c.jpg", steps := [(1, ApiStep.raiseExn "HTTP 429 Too Many Requests")] }

def ts0 : StampMin := ⟨2024, 1, 2, 3, 4⟩

/-! ### Rate-window invariant

`Inv s hist` relates the live state of the rate window to `hist`, the
full chronological history of timestamps ever appended by
`request_times.append(time.time())`.  The deque always holds a suffix
of the history, every element dropped from it was older than the
window when it was dropped, and any `MAX_RPM + 1` consecutively
recorded timestamps span at least `WINDOW_SECONDS`. -/

structure Inv (s : RState) (hist : List ℚ) : Prop where
  chain : hist.Chain' (· < ·)
  le_now : ∀ t ∈ hist, t ≤ s.now
  suffix : ∃ k, s.times = hist.drop k ∧
    ∀ t ∈ hist.take k, WINDOW_SECONDS < s.now - t
  spans : ∀ i : Nat, i + MAX_RPM < hist.length →
    WINDOW_SECONDS ≤ hist.getD (i + MAX_RPM) 0 - hist.getD i 0
  within : s.times.countP (fun t => decide (s.now - t < WINDOW_SECONDS)) ≤ MAX_RPM

end GeminiOCR

namespace GeminiOCR

theorem purge_eq_drop (now : ℚ) (l : List ℚ) :
    ∃ j, purge now l = l.drop j ∧ ∀ t ∈ l.take j, WINDOW_SECONDS < now - t := by
  induction l with
  | nil => exact ⟨0, by simp [purge]⟩
  | cons t rest ih =>
    by_cases h : WINDOW_SECONDS < now - t
    · obtain ⟨j, hdrop, hold⟩ := ih
      refine ⟨j + 1, by simpa [purge, h] using hdrop, ?_⟩
      intro u hu
      rw [List.take_succ_cons, List.mem_cons] at hu
      rcases hu with rfl | hu
      · exact h
      · exact hold u hu
    · exact ⟨0, by simp [purge, h], by simp⟩

theorem purge_headI_le (now : ℚ) (l : List ℚ) (h : purge now l ≠ []) :
    now - (purge now l).headI ≤ WINDOW_SECONDS := by
  induction l with
  | nil => simp [purge] at h
  | cons t rest ih =>
    by_cases hc : WINDOW_SECONDS < now - t
    · rw [purge, if_pos hc] at h ⊢
      exact ih h
    · rw [purge, if_neg hc]
      simpa using le_of_not_lt hc

theorem wait_for_rate_slot_spec (now : ℚ) (times : List ℚ) :
    now ≤ (wait_for_rate_slot ⟨now, times⟩).now ∧
    (∃ j, (wait_for_rate_slot ⟨now, times⟩).times = (purge now times).drop j ∧
      ∀ t ∈ (purge now times).take j,
        WINDOW_SECONDS < (wait_for_rate_slot ⟨now, times⟩).now - t) ∧
    (MAX_RPM ≤ (purge now times).length →
      (purge now times).headI + WINDOW_SECONDS ≤ (wait_for_rate_slot ⟨now, times⟩).now) := by
  unfold wait_for_rate_slot
  by_cases hlen : MAX_RPM ≤ (purge now times).length
  · simp only [hlen, if_true]
    by_cases hpos : 0 < WINDOW_SECONDS - (now - (purge now times).headI)
    · simp only [hpos, if_true]
      refine ⟨by linarith, ?_, fun _ => by linarith⟩
      obtain ⟨j, hdrop, hold⟩ :=
        purge_eq_drop (now + (WINDOW_SECONDS - (now - (purge now times).headI)))
          (purge now times)
      exact ⟨j, hdrop, hold⟩
    · simp only [hpos, if_false]
      refine ⟨le_refl _, ?_, fun _ => by linarith [not_lt.mp hpos]⟩
      obtain ⟨j, hdrop, hold⟩ := purge_eq_drop now (purge now times)
      exact ⟨j, hdrop, hold⟩
  · simp only [hlen, if_false]
    exact ⟨le_refl _, ⟨0, by simp⟩, fun h => h.elim⟩

theorem purge_length_le (s : RState) (hist : List ℚ) (hinv : Inv s hist)
    (n1 : ℚ) (hn1 : s.now < n1) :
    (purge n1 s.times).length ≤ MAX_RPM := by
  by_contra hcon
  push_neg at hcon
  obtain ⟨k, htimes, -⟩ := hinv.suffix
  obtain ⟨j, hdrop, -⟩ := purge_eq_drop n1 s.times
  have hPkj : purge n1 s.times = hist.drop (k + j) := by
    rw [hdrop, htimes, List.drop_drop, Nat.add_comm]
  rw [hPkj, List.length_drop] at hcon
  have hm4 : (k + j) + MAX_RPM < hist.length := by omega
  have hmlt : k + j < hist.length := by omega
  have hcons : hist.drop (k + j) = hist.getD (k + j) 0 :: hist.drop (k + j + 1) := by
    rw [List.drop_eq_getElem_cons hmlt, List.getD_eq_getElem _ _ hmlt]
  have hne : purge n1 s.times ≠ [] := by rw [hPkj, hcons]; simp
  have hhead : (purge n1 s.times).headI = hist.getD (k + j) 0 := by
    rw [hPkj, hcons]; rfl
  have hage := purge_headI_le n1 s.times hne
  rw [hhead] at hage
  have hspan := hinv.spans (k + j) hm4
  have hlenow : hist.getD ((k + j) + MAX_RPM) 0 ≤ s.now := by
    apply hinv.le_now
    rw [List.getD_eq_getElem _ _ hm4]
    exact List.getElem_mem hm4
  linarith

theorem slot_step (s : RState) (hist : List ℚ) (hinv : Inv s hist)
    (pre : ℚ) (hpre : 0 < pre) :
    Inv (wait_for_rate_slot ⟨s.now + pre, s.times⟩) hist ∧
    s.now + pre ≤ (wait_for_rate_slot ⟨s.now + pre, s.times⟩).now ∧
    ((wait_for_rate_slot ⟨s.now + pre, s.times⟩).times.length + 1 ≤ MAX_RPM ∨
      ((wait_for_rate_slot ⟨s.now + pre, s.times⟩).times = purge (s.now + pre) s.times ∧
        (purge (s.now + pre) s.times).length = MAX_RPM ∧
        (purge (s.now + pre) s.times).headI + WINDOW_SECONDS ≤
          (wait_for_rate_slot ⟨s.now + pre, s.times⟩).now)) := by
  have hn1 : s.now < s.now + pre := by linarith
  have hbound := purge_length_le s hist hinv (s.now + pre) hn1
  obtain ⟨hnowle, ⟨j2, hj2drop, hj2old⟩, hheadcl⟩ := wait_for_rate_slot_spec (s.now + pre) s.times
  obtain ⟨k, htimes, hkold⟩ := hinv.suffix
  obtain ⟨j, hjdrop, hjold⟩ := purge_eq_drop (s.now + pre) s.times
  set s1 := wait_for_rate_slot ⟨s.now + pre, s.times⟩ with hs1
  have hsnow1 : s.now < s1.now := lt_of_lt_of_le hn1 hnowle
  have hts1 : purge (s.now + pre) s.times = hist.drop (k + j) := by
    rw [hjdrop, htimes, List.drop_drop, Nat.add_comm]
  have hs1times : s1.times = hist.drop (k + j + j2) := by
    rw [hj2drop, hts1, List.drop_drop]
  have hInv1 : Inv s1 hist := by
    refine ⟨hinv.chain, ?_, ?_, hinv.spans, ?_⟩
    · intro t ht
      exact le_trans (hinv.le_now t ht) (le_of_lt hsnow1)
    · refine ⟨k + j + j2, hs1times, ?_⟩
      intro t ht
      rw [List.take_add, List.mem_append] at ht
      rcases ht with ht | ht
      · rw [List.take_add, List.mem_append] at ht
        rcases ht with ht | ht
        · have := hkold t ht
          linarith
        · have ht' : t ∈ s.times.take j := by rw [htimes]; exact ht
          have := hjold t ht'
          linarith
      · have ht' : t ∈ (purge (s.now + pre) s.times).take j2 := by
          rw [hts1]
          exact ht
        exact hj2old t ht'
    · have hsub : List.Sublist s1.times s.times := by
        rw [hj2drop, hjdrop, List.drop_drop]
        exact List.drop_sublist _ _
      calc s1.times.countP (fun t => decide (s1.now - t < WINDOW_SECONDS))
          ≤ s1.times.countP (fun t => decide (s.now - t < WINDOW_SECONDS)) := by
            apply List.countP_mono_left
            intro t ht hp
            simp only [decide_eq_true_eq] at hp ⊢
            linarith
        _ ≤ s.times.countP (fun t => decide (s.now - t < WINDOW_SECONDS)) :=
            hsub.countP_le _
        _ ≤ MAX_RPM := hinv.within
  refine ⟨hInv1, hnowle, ?_⟩
  rcases Nat.eq_zero_or_pos j2 with hj2z | hj2pos
  · subst hj2z
    rw [List.drop_zero] at hj2drop
    rcases lt_or_eq_of_le hbound with hlt | heq
    · left
      rw [hj2drop]
      omega
    · right
      exact ⟨hj2drop, heq, hheadcl (le_of_eq heq.symm)⟩
  · left
    have hM : MAX_RPM = 4 := rfl
    have : s1.times.length = (purge (s.now + pre) s.times).length - j2 := by
      rw [hj2drop, List.length_drop]
    omega

theorem getD_append_lt (l1 l2 : List ℚ) (m : Nat) (h : m < l1.length) :
    (l1 ++ l2).getD m 0 = l1.getD m 0 := by
  rw [List.getD_eq_getElem _ _ (by simp only [List.length_append]; omega),
    List.getD_eq_getElem _ _ h]
  exact List.getElem_append_left h

theorem getD_mem_take (l : List ℚ) (i k : Nat) (hik : i < k) (hil : i < l.length) :
    l.getD i 0 ∈ l.take k := by
  have hlt : i < (l.take k).length := by simp only [List.length_take]; omega
  have h1 : l.getD i 0 = (l.take k).getD i 0 := by
    rw [List.getD_eq_getElem _ _ hil, List.getD_eq_getElem _ _ hlt, List.getElem_take]
  rw [h1, List.getD_eq_getElem _ _ hlt]
  exact List.getElem_mem hlt

theorem append_step (s : RState) (hist : List ℚ) (hinv : Inv s hist)
    (pre post : ℚ) (hpre : 0 < pre) (hpost : 0 ≤ post) :
    Inv ⟨(wait_for_rate_slot ⟨s.now + pre, s.times⟩).now + post,
         (wait_for_rate_slot ⟨s.now + pre, s.times⟩).times ++
           [(wait_for_rate_slot ⟨s.now + pre, s.times⟩).now + post]⟩
      (hist ++ [(wait_for_rate_slot ⟨s.now + pre, s.times⟩).now + post]) := by
  obtain ⟨hInv1, hnow1, hdisj⟩ := slot_step s hist hinv pre hpre
  set s1 := wait_for_rate_slot ⟨s.now + pre, s.times⟩ with hs1def
  set a := s1.now + post with hadef
  have hs1a : s1.now ≤ a := by rw [hadef]; linarith
  have hsa : s.now < a := by
    have h1 : s.now < s.now + pre := by linarith
    have h2 := lt_of_lt_of_le h1 hnow1
    linarith
  have hM : MAX_RPM = 4 := rfl
  obtain ⟨k1, hk1times, hk1old⟩ := hInv1.suffix
  refine ⟨?_, ?_, ?_, ?_, ?_⟩
  · -- chain
    rw [List.chain'_append]
    refine ⟨hinv.chain, List.chain'_singleton a, ?_⟩
    intro x hx y hy
    simp only [List.head?_cons, Option.mem_def, Option.some.injEq] at hy
    subst hy
    have hxh : x ∈ hist := List.mem_of_mem_getLast? hx
    exact lt_of_le_of_lt (hinv.le_now x hxh) hsa
  · -- le_now
    intro t ht
    rw [List.mem_append] at ht
    show t ≤ a
    rcases ht with ht | ht
    · exact le_trans (hinv.le_now t ht) (le_of_lt hsa)
    · simp only [List.mem_singleton] at ht
      exact le_of_eq ht
  · -- suffix
    refine ⟨min k1 hist.length, ?_, ?_⟩
    · show s1.times ++ [a] = (hist ++ [a]).drop (min k1 hist.length)
      rw [List.drop_append_of_le_length (min_le_right _ _)]
      congr 1
      rw [hk1times]
      rcases le_total k1 hist.length with h | h
      · rw [min_eq_left h]
      · rw [min_eq_right h, List.drop_eq_nil_of_le h, List.drop_eq_nil_of_le (le_refl _)]
    · intro t ht
      rw [List.take_append_of_le_length (min_le_right _ _)] at ht
      have ht' : t ∈ hist.take k1 := by
        have heq2 : hist.take (min k1 hist.length) =
            (hist.take k1).take (min k1 hist.length) := by
          rw [List.take_take]
          congr 1
          omega
        rw [heq2] at ht
        exact List.take_subset _ _ ht
      have := hk1old t ht'
      show WINDOW_SECONDS < a - t
      linarith
  · -- spans
    intro i hi
    rw [List.length_append, List.length_singleton] at hi
    have hia : i + MAX_RPM ≤ hist.length := by omega
    rcases lt_or_eq_of_le hia with hlt | heqn
    · rw [getD_append_lt _ _ _ hlt, getD_append_lt _ _ _ (by omega)]
      exact hinv.spans i hlt
    · have hgdA : (hist ++ [a]).getD (i + MAX_RPM) 0 = a := by
        rw [List.getD_eq_getElem _ _
          (by simp only [List.length_append, List.length_singleton]; omega)]
        exact List.getElem_concat_length _ _ _ heqn _
      have hilt : i < hist.length := by omega
      rw [hgdA, getD_append_lt _ _ _ hilt]
      rcases hdisj with hsmall | ⟨heqtimes, hlen4, hhead⟩
      · have hlen : s1.times.length = hist.length - k1 := by
          rw [hk1times, List.length_drop]
        have hik : i < k1 := by omega
        have hmem : hist.getD i 0 ∈ hist.take k1 := getD_mem_take hist i k1 hik hilt
        have := hk1old _ hmem
        linarith
      · have hlen : s1.times.length = hist.length - k1 := by
          rw [hk1times, List.length_drop]
        have hlen2 : s1.times.length = MAX_RPM := by rw [heqtimes, hlen4]
        have hk1i : k1 = i := by omega
        have hcons : hist.drop k1 = hist.getD k1 0 :: hist.drop (k1 + 1) := by
          rw [List.drop_eq_getElem_cons (by omega), List.getD_eq_getElem _ _ (by omega)]
        have hheadI : (purge (s.now + pre) s.times).headI = hist.getD i 0 := by
          rw [← heqtimes, hk1times, hcons, hk1i]
          rfl
        rw [hheadI] at hhead
        linarith
  · -- within
    show (s1.times ++ [a]).countP (fun t => decide (a - t < WINDOW_SECONDS)) ≤ MAX_RPM
    rw [List.countP_append]
    have hlast : List.countP (fun t => decide (a - t < WINDOW_SECONDS)) [a] = 1 := by
      have h060 : (0 : ℚ) < WINDOW_SECONDS := by norm_num [WINDOW_SECONDS]
      simp [List.countP_cons, h060]
    rw [hlast]
    rcases hdisj with hsmall | ⟨heqtimes, hlen4, hhead⟩
    · have h1 : s1.times.countP (fun t => decide (a - t < WINDOW_SECONDS)) ≤ s1.times.length :=
        List.countP_le_length _
      omega
    · have hheada : (purge (s.now + pre) s.times).headI + WINDOW_SECONDS ≤ a := by linarith
      cases hts : s1.times with
      | nil =>
        rw [heqtimes] at hts
        rw [hts] at hlen4
        simp [hM] at hlen4
      | cons t0 rest =>
        have ht0 : t0 = (purge (s.now + pre) s.times).headI := by
          rw [← heqtimes, hts]
          rfl
        have hlenrest : rest.length = 3 := by
          have hl : s1.times.length = MAX_RPM := by rw [heqtimes, hlen4]
          rw [hts] at hl
          simp only [List.length_cons, hM] at hl
          omega
        rw [List.countP_cons]
        have hp0 : (decide (a - t0 < WINDOW_SECONDS)) = false := by
          simp only [decide_eq_false_iff_not, not_lt]
          rw [ht0]
          linarith
        rw [hp0]
        have hcr : rest.countP (fun t => decide (a - t < WINDOW_SECONDS)) ≤ rest.length :=
          List.countP_le_length _
        simp only [Bool.false_eq_true, if_false]
        omega

theorem Inv_init (n0 : ℚ) : Inv ⟨n0, []⟩ [] := by
  refine ⟨List.chain'_nil, by simp, ⟨0, by simp⟩, ?_, by simp⟩
  intro i hi
  simp at hi

theorem runAdmits_inv (ops : List AdmOp) :
    ∀ (s : RState) (hist : List ℚ), Inv s hist → (∀ op ∈ ops, validOp op = true) →
      Inv (runAdmits s hist ops).1 (runAdmits s hist ops).2 := by
  induction ops with
  | nil =>
    intro s hist h _
    simpa [runAdmits] using h
  | cons op rest ih =>
    intro s hist h hv
    have hvop : validOp op = true := hv op (List.mem_cons_self _ _)
    have hvrest : ∀ o ∈ rest, validOp o = true := fun o ho => hv o (List.mem_cons_of_mem _ ho)
    cases op with
    | slotOnly pre =>
      have hpre : 0 < pre := by
        simp only [validOp, decide_eq_true_eq] at hvop
        exact hvop
      have hstep := (slot_step s hist h pre hpre).1
      simpa only [runAdmits] using ih _ _ hstep hvrest
    | call pre post =>
      have hpp : 0 < pre ∧ 0 ≤ post := by
        simp only [validOp, Bool.and_eq_true, decide_eq_true_eq] at hvop
        exact hvop
      have hstep := append_step s hist h pre post hpp.1 hpp.2
      simpa only [runAdmits] using ih _ _ hstep hvrest

theorem spans_getD_general (hist : List ℚ) (hchain : hist.Chain' (· < ·))
    (hspans : ∀ i : Nat, i + MAX_RPM < hist.length →
      WINDOW_SECONDS ≤ hist.getD (i + MAX_RPM) 0 - hist.getD i 0) :
    ∀ i j : Nat, j < hist.length → i + MAX_RPM ≤ j →
      WINDOW_SECONDS ≤ hist.getD j 0 - hist.getD i 0 := by
  intro i j hj hij
  have hpw : hist.Pairwise (· < ·) := (List.chain'_iff_pairwise).mp hchain
  have hmono := List.pairwise_iff_getElem.mp hpw
  have hi4 : i + MAX_RPM < hist.length := by omega
  have hbase := hspans i hi4
  rcases eq_or_lt_of_le hij with heq | hlt
  · rw [← heq]
    exact hbase
  · have hlt2 : hist.getD (i + MAX_RPM) 0 < hist.getD j 0 := by
      rw [List.getD_eq_getElem _ _ hi4, List.getD_eq_getElem _ _ hj]
      exact hmono _ _ hi4 hj hlt
    linarith

/-- `wait_for_rate_slot` can only pop entries from the front of the deque:
its output timestamp list is a suffix of its input. -/
theorem wait_times_suffix (s : RState) :
    List.IsSuffix (wait_for_rate_slot s).times s.times := by
  show List.IsSuffix (wait_for_rate_slot ⟨s.now, s.times⟩).times s.times
  obtain ⟨-, ⟨j, hdrop, -⟩, -⟩ := wait_for_rate_slot_spec s.now s.times
  obtain ⟨jj, hdrop2, -⟩ := purge_eq_drop s.now s.times
  rw [hdrop, hdrop2]
  exact (List.drop_suffix _ _).trans (List.drop_suffix _ _)

/-- **C1.** For every sequence of admission requests — with real wall-clock
time strictly advancing between requests and API calls taking nonnegative
time — the rate limiter never admits more than `MAX_RPM` calls whose
recorded timestamps span less than `WINDOW_SECONDS`: any two recorded
timestamps at least `MAX_RPM` positions apart differ by at least
`WINDOW_SECONDS`.  Furthermore the deque holds at most `MAX_RPM` timestamps
newer than `WINDOW_SECONDS` before "now" once admission is granted, and
after 4 calls in rapid succession a 5th `wait_for_rate_slot` blocks for
exactly the remainder of the 60-second window (here 56 of 60 seconds). -/
theorem rate_window_never_exceeds_max_rpm (n0 : ℚ) (ops : List AdmOp)
    (hops : ∀ op ∈ ops, validOp op = true) :
    (∀ i j : Nat, j < (runAdmits ⟨n0, []⟩ [] ops).2.length → i + MAX_RPM ≤ j →
      WINDOW_SECONDS ≤ (runAdmits ⟨n0, []⟩ [] ops).2.getD j 0 -
        (runAdmits ⟨n0, []⟩ [] ops).2.getD i 0) ∧
    (runAdmits ⟨n0, []⟩ [] ops).1.times.countP
      (fun t => decide ((runAdmits ⟨n0, []⟩ [] ops).1.now - t < WINDOW_SECONDS)) ≤ MAX_RPM ∧
    runAdmits ⟨0, []⟩ [] [AdmOp.call 1 0, AdmOp.call 1 0, AdmOp.call 1 0, AdmOp.call 1 0] =
      (⟨4, [1, 2, 3, 4]⟩, [1, 2, 3, 4]) ∧
    (wait_for_rate_slot ⟨4 + 1, [1, 2, 3, 4]⟩).now - (4 + 1) =
      WINDOW_SECONDS - ((4 + 1) - 1) := by
  have hinv := runAdmits_inv ops ⟨n0, []⟩ [] (Inv_init n0) hops
  refine ⟨spans_getD_general _ hinv.chain hinv.spans, hinv.within, ?_, ?_⟩
  · norm_num [runAdmits, wait_for_rate_slot, purge, MAX_RPM, WINDOW_SECONDS]
  · norm_num [wait_for_rate_slot, purge, MAX_RPM, WINDOW_SECONDS]

/-- Satisfiability witness for `rate_window_never_exceeds_max_rpm` at the
concrete schedule `ops0`. -/
theorem rate_window_never_exceeds_max_rpm_witness :
    (runAdmits ⟨0, []⟩ [] ops0).1.times.countP
      (fun t => decide ((runAdmits ⟨0, []⟩ [] ops0).1.now - t < WINDOW_SECONDS)) ≤ MAX_RPM :=
  (rate_window_never_exceeds_max_rpm 0 ops0 (by norm_num [ops0, validOp])).2.1

/-- **C2 counterexample.** The admission operation `wait_for_rate_slot` does
not itself append the new call's timestamp: on the state
(now := 5, times := [1, 2]) — where admission is granted immediately — the
timestamp list comes back unchanged (length 2, not 3). -/
theorem admission_appends_no_timestamp :
    (wait_for_rate_slot ⟨5, [1, 2]⟩).times = [1, 2] ∧
      (wait_for_rate_slot ⟨5, [1, 2]⟩).times.length ≠ 3 := by
  have h : (wait_for_rate_slot ⟨5, [1, 2]⟩).times = [1, 2] := by
    norm_num [wait_for_rate_slot, purge, MAX_RPM, WINDOW_SECONDS]
  rw [h]
  exact ⟨rfl, by norm_num⟩

/-- **C2 (amended).** `wait_for_rate_slot` only discards expired timestamps
(its output deque is always a suffix of its input) and never appends; the
new call's timestamp is recorded separately in `process_image`, which
appends it only after the upload and generation calls return, `dt` seconds
after the slot was granted — so admission and recording are two distinct
operations. -/
theorem admission_and_recording_are_separate :
    (∀ s : RState, List.IsSuffix (wait_for_rate_slot s).times s.times) ∧
      ∀ (loads : String → Option JVal) (name : String) (s : RState) (pre dt : ℚ)
        (resp : Option Resp),
        (process_image_go loads name s [(pre, ApiStep.respond dt resp)]).2.times =
          (wait_for_rate_slot ⟨s.now + pre, s.times⟩).times ++
            [(wait_for_rate_slot ⟨s.now + pre, s.times⟩).now + dt] := by
  refine ⟨wait_times_suffix, ?_⟩
  intro loads name s pre dt resp
  simp only [process_image_go]
  cases hext : extract_text_from_response resp with
  | none => rfl
  | some text =>
    dsimp only
    by_cases ht : text = ""
    · rw [if_pos ht]
    · rw [if_neg ht]
      cases hjson : extract_json_loose loads text with
      | none => rfl
      | some parsed => rfl

/-- **C9 counterexample.** An attempt whose API call raises does not leave
the rate-window state unchanged: processing one raising attempt from
(now := 100, times := [10]) still purges the expired timestamp, emptying
the deque. -/
theorem raising_attempt_still_purges :
    (process_image_go loads0 "a.jpg" ⟨100, [10]⟩ [(1, ApiStep.raiseExn "boom")]).2.times = [] ∧
      (⟨100, [10]⟩ : RState).times ≠ [] := by
  constructor
  · have hb : is_rate_limit_error "boom" = false := by decide
    norm_num [process_image_go, hb, wait_for_rate_slot, purge, MAX_RPM, WINDOW_SECONDS]
  · simp

/-- **C9 (amended).** A timestamp is appended to the rate-window state only
when both the upload and the generation call return: over a run of attempts
that all raise, the deque ends as a suffix of its start — no timestamp
appended, no slot of the `MAX_RPM` budget consumed, only expired entries
discarded — while an attempt whose API calls return appends exactly one
timestamp. -/
theorem raising_attempts_append_nothing :
    (∀ (loads : String → Option JVal) (name : String) (s : RState) (steps : List Attempt),
      (∀ st ∈ steps, ∃ msg, st.2 = ApiStep.raiseExn msg) →
      List.IsSuffix (process_image_go loads name s steps).2.times s.times) ∧
    ∀ (loads : String → Option JVal) (name : String) (s : RState) (pre dt : ℚ)
      (resp : Option Resp),
      (process_image_go loads name s [(pre, ApiStep.respond dt resp)]).2.times.length =
        (wait_for_rate_slot ⟨s.now + pre, s.times⟩).times.length + 1 := by
  constructor
  · intro loads name s steps
    induction steps generalizing s with
    | nil =>
      intro _
      exact List.suffix_refl _
    | cons st rest ih =>
      intro hall
      obtain ⟨pre, step⟩ := st
      obtain ⟨msg, hmsg⟩ := hall (pre, step) (List.mem_cons_self _ _)
      have hmsg' : step = ApiStep.raiseExn msg := hmsg
      subst hmsg'
      simp only [process_image_go]
      by_cases hrl : is_rate_limit_error msg
      · rw [if_pos hrl]
        exact wait_times_suffix _
      · rw [if_neg hrl]
        exact (ih _ (fun st2 hst2 => hall st2 (List.mem_cons_of_mem _ hst2))).trans
          (wait_times_suffix _)
  · intro loads name s pre dt resp
    simp only [process_image_go]
    cases hext : extract_text_from_response resp with
    | none => simp
    | some text =>
      dsimp only
      by_cases ht : text = ""
      · rw [if_pos ht]
        simp
      · rw [if_neg ht]
        cases hjson : extract_json_loose loads text with
        | none => simp
        | some parsed => simp

/-- Satisfiability witness for `raising_attempts_append_nothing` on one
concrete raising attempt. -/
theorem raising_attempts_append_nothing_witness :
    List.IsSuffix
      (process_image_go loads0 "a.jpg" ⟨0, []⟩ [(1, ApiStep.raiseExn "x")]).2.times
      ([] : List ℚ) :=
  (raising_attempts_append_nothing).1 loads0 "a.jpg" ⟨0, []⟩ [(1, ApiStep.raiseExn "x")]
    (by
      intro st hst
      fin_cases hst
      exact ⟨"x", rfl⟩)

/-- The candidates block equals the ordered chain of strategies (b), (c),
(d). -/
theorem fromCandidates_eq (r : Resp) :
    fromCandidates r = ((stratParts r) <|> (stratStrFirst r) <|> stratStrResp r) := by
  cases hc : r.candidates with
  | none => simp [fromCandidates, stratParts, stratStrFirst, stratStrResp, hc]
  | some cs =>
    cases cs with
    | nil => simp [fromCandidates, stratParts, stratStrFirst, stratStrResp, hc]
    | cons first rest =>
      cases hcont : first.content with
      | none => simp [fromCandidates, stratParts, stratStrFirst, stratStrResp, hc, hcont]
      | some content =>
        cases hp : content.parts with
        | none =>
          simp [fromCandidates, stratParts, stratStrFirst, stratStrResp, hc, hcont, hp]
        | some ps =>
          cases ps with
          | nil =>
            simp [fromCandidates, stratParts, stratStrFirst, stratStrResp, hc, hcont, hp]
          | cons p0 ptail =>
            cases ht : p0.text <;>
              simp [fromCandidates, stratParts, stratStrFirst, stratStrResp, hc, hcont, hp, ht]

/-- **C7 counterexample.** The extraction can return a blank text although a
later extraction path yields a non-blank string: on `blankPartResp` the
first candidate's first part text is the blank string, which path (b)
returns outright, while the stringified reply (path (d)) is "NONBLANK". -/
theorem extract_text_blank_although_later_path_nonblank :
    extract_text_from_response (some blankPartResp) = some "" ∧
      stratStrResp blankPartResp = some "NONBLANK" ∧ "NONBLANK" ≠ "" :=
  ⟨rfl, rfl, by decide⟩

/-- **C7 (amended).** `extract_text_from_response` is the ordered
first-success-wins chain over the four extraction strategies, where (a)
succeeds only on a non-blank direct text string, (b) succeeds whenever the
first part's text field is a string — even a blank one, which is returned
(stripped) without falling through — (c) is the unstripped stringified
first candidate, available whenever candidates are present, and (d) is the
stripped stringified reply.  It never raises for shape mismatches and
returns an undefined text only for an undefined reply. -/
theorem extract_text_is_ordered_chain :
    extract_text_from_response none = none ∧
      ∀ r : Resp, extract_text_from_response (some r) = orderedExtractionChain r := by
  refine ⟨rfl, fun r => ?_⟩
  unfold orderedExtractionChain
  rw [← fromCandidates_eq]
  cases htext : r.text with
  | absent => simp [extract_text_from_response, stratDirect, htext]
  | nonStr => simp [extract_text_from_response, stratDirect, htext]
  | str v =>
    by_cases hv : pyStrip v ≠ ""
    · simp only [extract_text_from_response, stratDirect, htext]
      rw [if_pos hv, if_pos hv]
      simp
    · simp only [extract_text_from_response, stratDirect, htext]
      rw [if_neg hv, if_neg hv]
      simp

/-- **C8.** For every text on which the reference JSON parser succeeds,
`extract_json_loose` returns exactly the parsed value: the first stage of
the fallback chain applies `loads` to the unmodified text and wins, with no
repair applied. -/
theorem extract_json_loose_returns_reference_parse {α : Type}
    (loads : String → Option α) (text : String) (v : α)
    (h : loads text = some v) :
    extract_json_loose loads text = some v := by
  unfold extract_json_loose
  rw [h]

/-- Satisfiability witness for `extract_json_loose_returns_reference_parse`
on the concrete parser stub `loads0`. -/
theorem extract_json_loose_returns_reference_parse_witness :
    extract_json_loose loads0 "\x7b\x7d" = some (JVal.obj []) :=
  extract_json_loose_returns_reference_parse loads0 "\x7b\x7d" (JVal.obj []) rfl

/-- Folding ordered-dict insertion over an initial record whose head is
`(key, w)` keeps that key first; its final value is the last inserted
occurrence of `key`, or `w` if `key` is never inserted. -/
theorem foldl_odInsert_head (key : String) (kvs : List (String × JVal)) :
    ∀ (od : RecordT) (w : JVal), od.head? = some (key, w) →
      (kvs.foldl (fun od kv => odInsert od kv.1 kv.2) od).head? =
        some (key, (lastAssoc key kvs).getD w) := by
  induction kvs with
  | nil =>
    intro od w h
    simpa [lastAssoc] using h
  | cons kv rest ih =>
    intro od w h
    obtain ⟨k, v⟩ := kv
    cases od with
    | nil => simp at h
    | cons hd tl =>
      simp only [List.head?_cons, Option.some.injEq] at h
      subst h
      rw [List.foldl_cons]
      by_cases hk : k = key
      · rw [hk]
        have hmap : odInsert ((key, w) :: tl) key v =
            (key, v) :: tl.map (fun p => if p.1 = key then (key, v) else p) := by
          unfold odInsert
          rw [if_pos (by simp)]
          simp
        rw [hmap]
        rw [ih _ v (by simp)]
        cases hla : lastAssoc key rest with
        | none => simp [lastAssoc, hla, hk]
        | some w2 => simp [lastAssoc, hla, hk]
      · have hk2 : ¬ (key = k) := fun hcontra => hk hcontra.symm
        have hhead : (odInsert ((key, w) :: tl) k v).head? = some (key, w) := by
          unfold odInsert
          by_cases hany : (((key, w) :: tl).any (fun p => decide (p.1 = k))) = true
          · rw [if_pos hany]
            simp [hk2]
          · rw [if_neg hany]
            simp
        rw [ih _ w hhead]
        cases hla : lastAssoc key rest with
        | none => simp [lastAssoc, hla, hk]
        | some w2 => simp [lastAssoc, hla, hk]

/-- **C10.** The record built for a parsed object always has the filename
key `ファイル名` as its first key, but when the object itself contains that
key the merge loop overwrites the value in place: the first entry's value
is the object's last entry under that key when present, and the source
image's filename only otherwise. -/
theorem record_filename_value_overwritten (name : String)
    (kvs : List (String × JVal)) :
    (buildRecord name (JVal.obj kvs)).head? =
      some ("ファイル名", (lastAssoc "ファイル名" kvs).getD (JVal.str name)) := by
  unfold buildRecord
  exact foldl_odInsert_head "ファイル名" kvs _ _ rfl

/-- The control-flow outcome of `process_image` is independent of the
rate-window state it threads. -/
theorem process_image_go_fst (loads : String → Option JVal) (name : String) :
    ∀ (steps : List Attempt) (s : RState),
      (process_image_go loads name s steps).1 = process_image_outcome loads name steps := by
  intro steps
  induction steps with
  | nil => intro s; rfl
  | cons st rest ih =>
    intro s
    obtain ⟨pre, step⟩ := st
    cases step with
    | raiseExn msg =>
      simp only [process_image_go, process_image_outcome]
      by_cases hrl : is_rate_limit_error msg
      · rw [if_pos hrl, if_pos hrl]
      · rw [if_neg hrl, if_neg hrl]
        exact ih _
    | respond dt resp =>
      simp only [process_image_go, process_image_outcome]
      cases hext : extract_text_from_response resp with
      | none => exact ih _
      | some text =>
        dsimp only
        by_cases ht : text = ""
        · rw [if_pos ht, if_pos ht]
          exact ih _
        · rw [if_neg ht, if_neg ht]
          cases hjson : extract_json_loose loads text with
          | none => exact ih _
          | some parsed => rfl

/-- When every attempt is a retryable failure, `process_image` exhausts its
retries and reports no record. -/
theorem process_image_outcome_all_fail (loads : String → Option JVal) (name : String) :
    ∀ steps : List Attempt, (∀ st ∈ steps, failingStep loads st = true) →
      process_image_outcome loads name steps = Except.ok none := by
  intro steps
  induction steps with
  | nil => intro _; rfl
  | cons st rest ih =>
    intro hall
    have hst := hall st (List.mem_cons_self _ _)
    have hrest := fun st2 hst2 => hall st2 (List.mem_cons_of_mem _ hst2)
    obtain ⟨pre, step⟩ := st
    cases step with
    | raiseExn msg =>
      simp only [failingStep, Bool.not_eq_true'] at hst
      simp only [process_image_outcome]
      rw [if_neg (by rw [hst]; exact Bool.false_ne_true)]
      exact ih hrest
    | respond dt resp =>
      simp only [failingStep] at hst
      simp only [process_image_outcome]
      cases hext : extract_text_from_response resp with
      | none => exact ih hrest
      | some text =>
        rw [hext] at hst
        dsimp only at hst ⊢
        by_cases ht : text = ""
        · rw [if_pos ht]
          exact ih hrest
        · rw [if_neg ht] at hst ⊢
          cases hjson : extract_json_loose loads text with
          | none => exact ih hrest
          | some parsed =>
            rw [hjson] at hst
            simp at hst

/-- **C6.** For an image whose `MAX_RETRIES` attempts all fail (retryable
exception, empty or absent text, or unparsable text), the record appended
for it by `main` is exactly the two-field failure record: the filename key
first, holding the image's name, then the single synthetic `error` field —
no partial or garbage fields. -/
theorem failed_image_record_shape (loads : String → Option JVal) (s : RState)
    (c : ImgCase) (rest : List ImgCase)
    (hlen : c.steps.length = MAX_RETRIES)
    (hfail : ∀ st ∈ c.steps, failingStep loads st = true) :
    (mainLoop loads s (c :: rest)).1.head? =
      some [("ファイル名", JVal.str c.name), ("error", JVal.str "Invalid or no JSON")] ∧
    (errorRec c.name).length = 2 := by
  have houtcome : process_image_outcome loads c.name c.steps = Except.ok none :=
    process_image_outcome_all_fail loads c.name c.steps hfail
  have hfst := process_image_go_fst loads c.name c.steps s
  rw [houtcome] at hfst
  refine ⟨?_, rfl⟩
  simp only [mainLoop]
  rcases hgo : process_image_go loads c.name s c.steps with ⟨out, s1⟩
  rw [hgo] at hfst
  simp only at hfst
  subst hfst
  simp [errorRec]

/-- Satisfiability witness for `failed_image_record_shape` on the concrete
all-attempts-fail image `imgFail0`. -/
theorem failed_image_record_shape_witness :
    (mainLoop loads0 ⟨0, []⟩ [imgFail0]).1.head? =
      some [("ファイル名", JVal.str "a.jpg"), ("error", JVal.str "Invalid or no JSON")] :=
  (failed_image_record_shape loads0 ⟨0, []⟩ imgFail0 [] rfl
    (by intro st hst; fin_cases hst <;> rfl)).1

/-- `lexLe` is total. -/
theorem lexLe_total : ∀ a b : List Char, lexLe a b = true ∨ lexLe b a = true
  | [], _ => Or.inl rfl
  | _ :: _, [] => Or.inr rfl
  | a :: as, b :: bs => by
    by_cases hab : a < b
    · left
      simp [lexLe, hab]
    · by_cases hba : b < a
      · right
        simp [lexLe, hba]
      · have heq : a = b := le_antisymm (not_lt.mp hba) (not_lt.mp hab)
        subst heq
        rcases lexLe_total as bs with h | h
        · left
          simp [lexLe, h]
        · right
          simp [lexLe, h]

/-- `lexLe` is transitive. -/
theorem lexLe_trans : ∀ a b c : List Char,
    lexLe a b = true → lexLe b c = true → lexLe a c = true
  | [], _, _ => by intro _ _; rfl
  | _ :: _, [], _ => by intro h _; simp [lexLe] at h
  | _ :: _, _ :: _, [] => by intro _ h; simp [lexLe] at h
  | a :: as, b :: bs, c :: cs => by
    intro h1 h2
    by_cases hab : a < b
    · by_cases hbc : b < c
      · simp [lexLe, lt_trans hab hbc]
      · by_cases hbc2 : b = c
        · subst hbc2
          simp [lexLe, hab]
        · simp [lexLe, hbc, hbc2] at h2
    · by_cases hab2 : a = b
      · subst hab2
        simp only [lexLe, lt_irrefl, if_false, if_pos rfl] at h1
        by_cases hac : a < c
        · simp [lexLe, hac]
        · by_cases hac2 : a = c
          · subst hac2
            simp only [lexLe, lt_irrefl, if_false, if_pos rfl] at h2 ⊢
            exact lexLe_trans as bs cs h1 h2
          · simp [lexLe, hac, hac2] at h2
      · simp [lexLe, hab, hab2] at h1

/-- `mainLoop` produces exactly the per-image records, in order, up to the
first aborting image. -/
theorem mainLoop_eq_collectOk (loads : String → Option JVal) :
    ∀ (cs : List ImgCase) (s : RState),
      (mainLoop loads s cs).1 = collectOk (cs.map (recOutcome loads)) := by
  intro cs
  induction cs with
  | nil => intro s; rfl
  | cons c rest ih =>
    intro s
    have hfst := process_image_go_fst loads c.name c.steps s
    rcases hgo : process_image_go loads c.name s c.steps with ⟨out, s1⟩
    rw [hgo] at hfst
    simp only at hfst
    subst hfst
    simp only [mainLoop, hgo, List.map_cons]
    cases houtc : process_image_outcome loads c.name c.steps with
    | error m =>
      simp [collectOk, recOutcome, houtc]
    | ok o =>
      cases o with
      | none => simp [collectOk, recOutcome, houtc, ih]
      | some od => simp [collectOk, recOutcome, houtc, ih]

/-- **C5.** The records of a batch run appear in exactly the
lexicographically sorted order of the input image filenames — one record
per processed image, each image's record determined by its own attempts
alone (so retries never reorder anything) — where the processed images are
the sorted prefix up to the first fatal abort. -/
theorem records_follow_sorted_input_order (loads : String → Option JVal)
    (images : List ImgCase) (s : RState) (ts : StampMin) :
    (mainModel loads images s ts).results =
      collectOk ((sortImgs images).map (recOutcome loads)) ∧
    List.Sorted (fun a b : ImgCase => strLe a.name b.name = true) (sortImgs images) ∧
    List.Perm (sortImgs images) images := by
  refine ⟨?_, ?_, ?_⟩
  · show (mainLoop loads s (sortImgs images)).1 = _
    exact mainLoop_eq_collectOk loads (sortImgs images) s
  · haveI htot : IsTotal ImgCase (fun a b => strLe a.name b.name = true) :=
      ⟨fun a b => lexLe_total a.name.toList b.name.toList⟩
    haveI htr : IsTrans ImgCase (fun a b => strLe a.name b.name = true) :=
      ⟨fun a b c => lexLe_trans a.name.toList b.name.toList c.name.toList⟩
    exact List.sorted_insertionSort _ _
  · exact List.perm_insertionSort _ _

/-- Running the batch loop over a prefix of record-yielding images followed
by an aborting image yields exactly the prefix's records with the abort
flag set. -/
theorem mainLoop_prefix_abort (loads : String → Option JVal) :
    ∀ (cs1 : List ImgCase) (rs : List RecordT) (s : RState) (c : ImgCase)
      (cs2 : List ImgCase),
      List.Forall₂ (fun c2 r => recOutcome loads c2 = Except.ok r) cs1 rs →
      (∃ m, process_image_outcome loads c.name c.steps = Except.error m) →
      (mainLoop loads s (cs1 ++ c :: cs2)).1 = rs ∧
        (mainLoop loads s (cs1 ++ c :: cs2)).2.2 = true := by
  intro cs1
  induction cs1 with
  | nil =>
    intro rs s c cs2 hpairs habort
    cases hpairs
    obtain ⟨m, hm⟩ := habort
    have hfst := process_image_go_fst loads c.name c.steps s
    rcases hgo : process_image_go loads c.name s c.steps with ⟨out, s1⟩
    rw [hgo] at hfst
    simp only at hfst
    subst hfst
    rw [hm] at hgo
    simp only [List.nil_append, mainLoop, hgo]
    simp
  | cons c1 rest1 ih =>
    intro rs s c cs2 hpairs habort
    cases hpairs with
    | cons h1 hrest =>
      have hfst := process_image_go_fst loads c1.name c1.steps s
      rcases hgo : process_image_go loads c1.name s c1.steps with ⟨out, s1⟩
      rw [hgo] at hfst
      simp only at hfst
      subst hfst
      unfold recOutcome at h1
      cases houtc : process_image_outcome loads c1.name c1.steps with
      | error m2 =>
        rw [houtc] at h1
        simp at h1
      | ok o =>
        rw [houtc] at hgo h1
        cases o with
        | none =>
          simp only [Except.ok.injEq] at h1
          have hih := ih _ s1 c cs2 hrest habort
          simp only [List.cons_append, mainLoop, hgo]
          refine ⟨?_, hih.2⟩
          rw [← h1]
          exact congrArg (List.cons (errorRec c1.name)) hih.1
        | some od =>
          simp only [Except.ok.injEq] at h1
          have hih := ih _ s1 c cs2 hrest habort
          simp only [List.cons_append, mainLoop, hgo]
          refine ⟨?_, hih.2⟩
          rw [← h1]
          exact congrArg (List.cons od) hih.1

/-- **C3.** For a sorted input list in which the images before `c` each
yield a record and `c`'s first attempt raises a rate-limit-classified
error, the run aborts at `c`: the batch result is exactly the records of
the earlier images — the aborting image and everything after it are absent,
not represented as error records — and the output file is still written
whenever those records are non-empty. -/
theorem rate_limit_abort_keeps_processed_prefix (loads : String → Option JVal)
    (s : RState) (ts : StampMin) (cs1 : List ImgCase) (rs : List RecordT)
    (c : ImgCase) (cs2 : List ImgCase) (pre : ℚ) (msg : String) (more : List Attempt)
    (hsorted : sortImgs (cs1 ++ c :: cs2) = cs1 ++ c :: cs2)
    (hpairs : List.Forall₂ (fun c2 r => recOutcome loads c2 = Except.ok r) cs1 rs)
    (hsteps : c.steps = (pre, ApiStep.raiseExn msg) :: more)
    (hrl : is_rate_limit_error msg = true) :
    (mainModel loads (cs1 ++ c :: cs2) s ts).results = rs ∧
    (mainModel loads (cs1 ++ c :: cs2) s ts).aborted = true ∧
    (rs ≠ [] → (mainModel loads (cs1 ++ c :: cs2) s ts).writes = [(fmtName ts, rs)]) := by
  have habort : ∃ m, process_image_outcome loads c.name c.steps = Except.error m := by
    refine ⟨msg, ?_⟩
    rw [hsteps]
    simp only [process_image_outcome]
    rw [if_pos hrl]
  have hmain := mainLoop_prefix_abort loads cs1 rs s c cs2 hpairs habort
  have hres : (mainModel loads (cs1 ++ c :: cs2) s ts).results = rs := by
    show (mainLoop loads s (sortImgs (cs1 ++ c :: cs2))).1 = rs
    rw [hsorted]
    exact hmain.1
  have hab : (mainModel loads (cs1 ++ c :: cs2) s ts).aborted = true := by
    show (mainLoop loads s (sortImgs (cs1 ++ c :: cs2))).2.2 = true
    rw [hsorted]
    exact hmain.2
  refine ⟨hres, hab, fun hne => ?_⟩
  show (if (mainLoop loads s (sortImgs (cs1 ++ c :: cs2))).1.isEmpty then
      ([] : List (String × List RecordT))
    else [(fmtName ts, (mainLoop loads s (sortImgs (cs1 ++ c :: cs2))).1)]) =
    [(fmtName ts, rs)]
  rw [hsorted, hmain.1]
  rw [if_neg (by simpa using hne)]

/-- Satisfiability witness for `rate_limit_abort_keeps_processed_prefix`:
one successfully processed image followed by a rate-limit abort keeps
exactly the first image's record and still writes the output file. -/
theorem rate_limit_abort_keeps_processed_prefix_witness :
    (mainModel loads0 [imgOk0, imgAbort0] ⟨0, []⟩ ts0).results =
      [[("ファイル名", JVal.str "b.jpg")]] ∧
    (mainModel loads0 [imgOk0, imgAbort0] ⟨0, []⟩ ts0).aborted = true ∧
    ([[("ファイル名", JVal.str "b.jpg")]] ≠ ([] : List RecordT) →
      (mainModel loads0 [imgOk0, imgAbort0] ⟨0, []⟩ ts0).writes =
        [(fmtName ts0, [[("ファイル名", JVal.str "b.jpg")]])]) :=
  rate_limit_abort_keeps_processed_prefix loads0 ⟨0, []⟩ ts0 [imgOk0]
    [[("ファイル名", JVal.str "b.jpg")]] imgAbort0 [] 1 "HTTP 429 Too Many Requests" []
    (by
      have h : strLe imgOk0.name imgAbort0.name = true := by decide
      simp [sortImgs, List.insertionSort, List.orderedInsert, h])
    (List.Forall₂.cons rfl List.Forall₂.nil) rfl (by decide)

/-- **C4.** The persistence step of `main` executes exactly once per run on
every exit path (normal completion or fatal abort): a run performs at most
one file write; it writes nothing exactly when no records accumulated; and
any write stores the full ordered record sequence under the
minute-truncated timestamp name produced by `strftime("%Y%m%d_%H%M")`. -/
theorem persist_exactly_once (loads : String → Option JVal) (images : List ImgCase)
    (s : RState) (ts : StampMin) :
    (mainModel loads images s ts).writes.length ≤ 1 ∧
    ((mainModel loads images s ts).writes = [] ↔
      (mainModel loads images s ts).results = []) ∧
    ∀ fn rs, (fn, rs) ∈ (mainModel loads images s ts).writes →
      fn = fmtName ts ∧ rs = (mainModel loads images s ts).results := by
  have hres : (mainModel loads images s ts).results =
      (mainLoop loads s (sortImgs images)).1 := rfl
  have hwr : (mainModel loads images s ts).writes =
      (if (mainLoop loads s (sortImgs images)).1.isEmpty then []
       else [(fmtName ts, (mainLoop loads s (sortImgs images)).1)]) := rfl
  rw [hres, hwr]
  cases hE : (mainLoop loads s (sortImgs images)).1 with
  | nil => simp
  | cons r0 rl =>
    rw [if_neg (by simp)]
    refine ⟨by simp, by simp, ?_⟩
    intro fn rs hmem
    simp only [List.mem_singleton, Prod.mk.injEq] at hmem
    exact ⟨hmem.1, hmem.2⟩

/-- Satisfiability witness for `persist_exactly_once`: on a run whose single
image fails all retries, the one write carries the timestamp name and the
full results. -/
theorem persist_exactly_once_witness :
    fmtName ts0 = fmtName ts0 ∧
      [errorRec "a.jpg"] = (mainModel loads0 [imgFail0] ⟨0, []⟩ ts0).results :=
  (persist_exactly_once loads0 [imgFail0] ⟨0, []⟩ ts0).2.2 (fmtName ts0) [errorRec "a.jpg"]
    (by
      have hw : (mainModel loads0 [imgFail0] ⟨0, []⟩ ts0).writes =
          [(fmtName ts0, [errorRec "a.jpg"])] := by
        norm_num [mainModel, mainLoop, imgFail0, failSteps0, process_image_go,
          wait_for_rate_slot, purge, MAX_RPM, WINDOW_SECONDS, extract_text_from_response,
          sortImgs, List.insertionSort, List.orderedInsert]
      rw [hw]
      simp)

end GeminiOCR
